import Mathlib

/-!
Shallow embedding of the go-collections library (Rafael24595/go-collections).

The Go sources embedded here:
  * `Vector` (src/unnamed/part_004): a slice-backed sequence.  Indices are Go
    `int`s, modelled as `Int`.  Methods that return `(value, ok)` pairs where
    the value is a zero value on failure are modelled with `Option`:
    `(some v, true)` for success, `(none, false)` for failure.
  * `Pair`, `DictionaryLimit` (src/unnamed/part_003): the bounded evicting
    mapping.  The Go `map[T]K` backing store is modelled as an association
    list `List (K × V)`; a concrete list fixes one Go map iteration order,
    and theorems quantify over all lists, covering every order.
  * `DictionarySync` (src/collection/dictionary_sync.go): the synchronized
    mapping.  The `sync.RWMutex` has no observable effect on the sequential
    semantics of a single completed operation and is dropped; each method
    body is translated as the state transformation it performs under the
    lock.

Mutating Go methods on pointer receivers are modelled as functions returning
the updated structure alongside the Go return values.
-/

namespace GoCollections

/-- Association-list lookup, modelling Go's `v, ok := m[key]` on `map[T]K`.
`some v` corresponds to `ok = true`, `none` to the zero value with
`ok = false`. -/
def mapLookup {K V : Type} [DecidableEq K] : List (K × V) → K → Option V
  | [], _ => none
  | (k, v) :: rest, key => if k = key then some v else mapLookup rest key

/-- Association-list insert-or-overwrite, modelling Go's `m[key] = item`. -/
def mapInsert {K V : Type} [DecidableEq K] : List (K × V) → K → V → List (K × V)
  | [], key, item => [(key, item)]
  | (k, v) :: rest, key, item =>
    if k = key then (k, item) :: rest else (k, v) :: mapInsert rest key item

/-- Association-list deletion, modelling Go's `delete(m, key)`.  Removes the
first entry with the given key; entries for a key are unique in any list that
models a Go map. -/
def mapErase {K V : Type} [DecidableEq K] : List (K × V) → K → List (K × V)
  | [], _ => []
  | (k, v) :: rest, key => if k = key then rest else (k, v) :: mapErase rest key

/-- The keys of an association list, in order. -/
def mapKeys {K V : Type} (m : List (K × V)) : List K := m.map Prod.fst

/-- Source `Pair` (src/unnamed/part_003): a key-value pair. -/
structure Pair (K V : Type) where
  key : K
  value : V
  deriving DecidableEq, Repr

/-- Source `NewPair` (src/unnamed/part_003). -/
def NewPair {K V : Type} (key : K) (value : V) : Pair K V := ⟨key, value⟩

/-- Source `Vector` (src/unnamed/part_004): `items` is the backing Go slice. -/
structure Vector (I : Type) where
  items : List I
  deriving DecidableEq, Repr

/-- Source `VectorFromList` (src/unnamed/part_004). -/
def VectorFromList {I : Type} (items : List I) : Vector I := ⟨items⟩

/-- Source `VectorEmpty` (src/unnamed/part_004). -/
def VectorEmpty (I : Type) : Vector I := VectorFromList []

/-- Source `Vector.Size` (src/unnamed/part_004): `len(c.items)` as a Go `int`. -/
def Vector.Size {I : Type} (c : Vector I) : Int := (c.items.length : Int)

/-- Index-tracking loop of `Vector.IndexOf` (src/unnamed/part_004):
`for i, item := range c.items { if predicate(item) { return i } }`. -/
def indexOfLoop {I : Type} (predicate : I → Bool) : List I → Int → Int
  | [], _ => -1
  | item :: rest, i => if predicate item then i else indexOfLoop predicate rest (i + 1)

/-- Source `Vector.IndexOf` (src/unnamed/part_004): index of the first element
satisfying the predicate, `-1` if none. -/
def Vector.IndexOf {I : Type} (c : Vector I) (predicate : I → Bool) : Int :=
  indexOfLoop predicate c.items 0

/-- Source `Vector.Get` (src/unnamed/part_004): in-range index returns the element
and `true`; otherwise the zero value (modelled `none`) and `false`. -/
def Vector.Get {I : Type} (c : Vector I) (index : Int) : Option I × Bool :=
  if 0 ≤ index ∧ index < (c.items.length : Int) then
    (c.items.get? index.toNat, true)
  else
    (none, false)

/-- Source `Vector.Append` (src/unnamed/part_004) restricted to a single element, the
only arity the dictionary code uses: `c.items = append(c.items, items...)`. -/
def Vector.Append {I : Type} (c : Vector I) (item : I) : Vector I :=
  ⟨c.items ++ [item]⟩

/-- Source `Vector.Remove` (src/unnamed/part_004).  The Go body runs
`c.items = append(c.items[:index], c.items[index:]...)`, which writes the
elements `c.items[index:]` back into positions `index, index+1, ...` of the
same backing array: the slice contents are unchanged.  The faithful
translation is `take index ++ drop index`.  Returns the element at `index`
and `true` when the index is in range, the zero value and `false` otherwise. -/
def Vector.Remove {I : Type} (c : Vector I) (index : Int) :
    Option I × Bool × Vector I :=
  if index < 0 ∨ index > (c.items.length : Int) - 1 then
    (none, false, c)
  else
    ((c.Get index).1, (c.Get index).2,
      ⟨c.items.take index.toNat ++ c.items.drop index.toNat⟩)

/-- Source `Vector.Shift` (src/unnamed/part_004): pop-front.  Empty vector returns
the zero value and `false`; otherwise the head, `true`, and the tail. -/
def Vector.Shift {I : Type} (c : Vector I) : Option I × Bool × Vector I :=
  match c.items with
  | [] => (none, false, c)
  | first :: rest => (some first, true, ⟨rest⟩)

/-- Source `Vector.Set` (src/unnamed/part_004): replace the element at `index`,
returning the previous element; out-of-range returns the zero value and
`false` and leaves the vector unchanged. -/
def Vector.Set {I : Type} (c : Vector I) (index : Int) (item : I) :
    Option I × Bool × Vector I :=
  if index < 0 ∨ index > (c.items.length : Int) - 1 then
    (none, false, c)
  else
    ((c.Get index).1, (c.Get index).2, ⟨c.items.set index.toNat item⟩)

/-- Source `Vector.Slice` (src/unnamed/part_004).  The Go body clamps a negative
`start`, a `start` past the end, and an `end` past the end, then evaluates
`c.items[start:end]`.  Go slicing panics unless `0 ≤ start ≤ end ≤ len`;
the panic is modelled as `none`, a successful slice as `some`. -/
def Vector.Slice {I : Type} (c : Vector I) (start end_ : Int) :
    Option (Vector I) :=
  let start1 := if start < 0 then 0 else start
  let start2 := if start1 > (c.items.length : Int) - 1 then (c.items.length : Int) else start1
  let end2 := if end_ > (c.items.length : Int) - 1 then (c.items.length : Int) else end_
  if 0 ≤ start2 ∧ start2 ≤ end2 ∧ end2 ≤ (c.items.length : Int) then
    some ⟨(c.items.drop start2.toNat).take (end2 - start2).toNat⟩
  else
    none

/-- Source `Vector.Page` (src/unnamed/part_004): 1-based pagination delegating to
`Slice`; page `0` is treated as page `1`. -/
def Vector.Page {I : Type} (c : Vector I) (page size : Int) :
    Option (Vector I) :=
  let page1 := if page = 0 then 1 else page
  c.Slice ((page1 - 1) * size) (page1 * size)

/-- Source `DictionarySync` (src/collection/dictionary_sync.go): `items` is the
backing Go map, modelled as an association list in iteration order; the
`sync.RWMutex` field is dropped (see the header comment). -/
structure DictionarySync (K V : Type) where
  items : List (K × V)
  deriving Repr

/-- Source `DictionarySync.Get` (src/collection/dictionary_sync.go):
`value, exists := c.items[key]`. -/
def DictionarySync.Get {K V : Type} [DecidableEq K] (c : DictionarySync K V)
    (key : K) : Option V × Bool :=
  (mapLookup c.items key, (mapLookup c.items key).isSome)

/-- Source `DictionarySync.Size` (src/collection/dictionary_sync.go). -/
def DictionarySync.Size {K V : Type} (c : DictionarySync K V) : Int :=
  (c.items.length : Int)

/-- Source `DictionarySync.Remove` (src/collection/dictionary_sync.go):
`old, exists := c.items[key]; delete(c.items, key)`. -/
def DictionarySync.Remove {K V : Type} [DecidableEq K] (c : DictionarySync K V)
    (key : K) : Option V × Bool × DictionarySync K V :=
  (mapLookup c.items key, (mapLookup c.items key).isSome,
    ⟨mapErase c.items key⟩)

/-- Source `DictionarySync.Clean` (src/collection/dictionary_sync.go):
`c.items = make(map[K]V)`. -/
def DictionarySync.Clean {K V : Type} (_ : DictionarySync K V) :
    DictionarySync K V :=
  ⟨[]⟩

/-- Source `DictionarySync.FilterSelf` (src/collection/dictionary_sync.go): rebuilds
the backing map keeping only the entries satisfying the predicate. -/
def DictionarySync.FilterSelf {K V : Type} (c : DictionarySync K V)
    (predicate : K → V → Bool) : DictionarySync K V :=
  ⟨c.items.filter (fun p => predicate p.1 p.2)⟩

/-- Scanning loop of `DictionarySync.Max` (src/collection/dictionary_sync.go):
carries `maxKey`, `maxValue`, `maxScore`, `init` across the range over
`c.items`; the running maximum is replaced when `!init || score >= maxScore`. -/
def maxLoop {K V : Type} (predicate : K → V → Int) :
    List (K × V) → K → V → Int → Bool → K × V × Int × Bool
  | [], maxKey, maxValue, maxScore, init => (maxKey, maxValue, maxScore, init)
  | (k, v) :: rest, maxKey, maxValue, maxScore, init =>
    let score := predicate k v
    if init = false ∨ maxScore ≤ score then
      maxLoop predicate rest k v score true
    else
      maxLoop predicate rest maxKey maxValue maxScore init

/-- Source `DictionarySync.Max` (src/collection/dictionary_sync.go): on an empty map
returns the zero pair, score `0` and `false`; otherwise scans every entry and
returns the pair with the extremal score (the loop starts from the Go
zero-valued locals, modelled by `default`). -/
def DictionarySync.Max {K V : Type} [Inhabited K] [Inhabited V]
    (c : DictionarySync K V) (predicate : K → V → Int) :
    Pair K V × Int × Bool :=
  if c.items.length = 0 then
    (NewPair default default, 0, false)
  else
    let r := maxLoop predicate c.items default default 0 false
    (NewPair r.1 r.2.1, r.2.2.1, true)

/-- Scanning loop of `DictionarySync.Min` (src/collection/dictionary_sync.go):
carries `minPair`, `minScore`, `init`; the running minimum is replaced when
`!init || score <= minScore`. -/
def minLoop {K V : Type} (predicate : K → V → Int) :
    List (K × V) → Pair K V → Int → Bool → Pair K V × Int × Bool
  | [], minPair, minScore, init => (minPair, minScore, init)
  | (k, v) :: rest, minPair, minScore, init =>
    let score := predicate k v
    if init = false ∨ score ≤ minScore then
      minLoop predicate rest ⟨k, v⟩ score true
    else
      minLoop predicate rest minPair minScore init

/-- Source `DictionarySync.Min` (src/collection/dictionary_sync.go). -/
def DictionarySync.Min {K V : Type} [Inhabited K] [Inhabited V]
    (c : DictionarySync K V) (predicate : K → V → Int) :
    Pair K V × Int × Bool :=
  if c.items.length = 0 then
    (⟨default, default⟩, 0, false)
  else
    let r := minLoop predicate c.items ⟨default, default⟩ 0 false
    (r.1, r.2.1, true)

/-- Source `DictionaryLimit` (src/unnamed/part_003): extends `DictionarySync` (whose
backing map appears here as the inherited `items` field) with the capacity
`size` and the eviction `timeline`. -/
structure DictionaryLimit (K V : Type) where
  items : List (K × V)
  size : Int
  timeline : Vector K
  deriving Repr

/-- The eviction step shared by `DictionaryLimit.Put`, `PutIfAbsent` and
`PutAll` (src/unnamed/part_003):
`if c.timeline.Size() > 0 && c.timeline.Size() > c.size { first, _ :=
c.timeline.Shift(); delete(c.items, *first) }`.  The guard guarantees the
timeline is non-empty, so the shifted pointer is never nil. -/
def evictOne {K V : Type} [DecidableEq K] (items : List (K × V))
    (timeline : Vector K) (size : Int) : List (K × V) × Vector K :=
  if timeline.Size > 0 ∧ timeline.Size > size then
    match timeline.items with
    | [] => (items, timeline)
    | first :: rest => (mapErase items first, ⟨rest⟩)
  else
    (items, timeline)

/-- Source `DictionaryLimit.Put` (src/unnamed/part_003): records the old value and
presence, overwrites the backing map, removes the key's prior timeline
occurrence via `Vector.Remove` when `IndexOf` finds one, appends the key to
the timeline, then runs the eviction step. -/
def DictionaryLimit.Put {K V : Type} [DecidableEq K] (c : DictionaryLimit K V)
    (key : K) (item : V) : Option V × Bool × DictionaryLimit K V :=
  let old := mapLookup c.items key
  let items1 := mapInsert c.items key item
  let tl1 :=
    if c.timeline.IndexOf (fun t => decide (key = t)) ≠ -1 then
      (c.timeline.Remove (c.timeline.IndexOf (fun t => decide (key = t)))).2.2
    else
      c.timeline
  let tl2 := tl1.Append key
  let r := evictOne items1 tl2 c.size
  (old, old.isSome, ⟨r.1, c.size, r.2⟩)

/-- Source `DictionaryLimit.PutIfAbsent` (src/unnamed/part_003): when the key is
present, returns the existing value and `true` without touching the state;
otherwise inserts like `Put` (the `IndexOf`/`Remove` step is present in the
source and translated as written). -/
def DictionaryLimit.PutIfAbsent {K V : Type} [DecidableEq K]
    (c : DictionaryLimit K V) (key : K) (item : V) :
    Option V × Bool × DictionaryLimit K V :=
  let old := mapLookup c.items key
  if old.isSome then
    (old, old.isSome, c)
  else
    let items1 := mapInsert c.items key item
    let tl1 :=
      if c.timeline.IndexOf (fun t => decide (key = t)) ≠ -1 then
        (c.timeline.Remove (c.timeline.IndexOf (fun t => decide (key = t)))).2.2
      else
        c.timeline
    let tl2 := tl1.Append key
    let r := evictOne items1 tl2 c.size
    (old, old.isSome, ⟨r.1, c.size, r.2⟩)

/-- Insertion loop of `DictionaryLimit.PutAll` (src/unnamed/part_003):
iterates the supplied map (the list fixes one iteration order), stopping once
`count == c.size`; each accepted entry is written to the backing map and its
key appended to the timeline. -/
def putAllLoop {K V : Type} [DecidableEq K] (size : Int) :
    List (K × V) → List (K × V) → Vector K → Int →
    List (K × V) × Vector K × Int
  | [], items, timeline, count => (items, timeline, count)
  | (k, v) :: rest, items, timeline, count =>
    if count = size then
      (items, timeline, count)
    else
      putAllLoop size rest (mapInsert items k v) (timeline.Append k) (count + 1)

/-- Eviction loop of `DictionaryLimit.PutAll` (src/unnamed/part_003):
`for range count`, running the guarded eviction step each iteration. -/
def evictLoop {K V : Type} [DecidableEq K] (size : Int) :
    Nat → List (K × V) → Vector K → List (K × V) × Vector K
  | 0, items, timeline => (items, timeline)
  | n + 1, items, timeline =>
    let r := evictOne items timeline size
    evictLoop size n r.1 r.2

/-- Source `DictionaryLimit.PutAll` (src/unnamed/part_003). -/
def DictionaryLimit.PutAll {K V : Type} [DecidableEq K]
    (c : DictionaryLimit K V) (itemsIn : List (K × V)) : DictionaryLimit K V :=
  let r := putAllLoop c.size itemsIn c.items c.timeline 0
  let r2 := evictLoop c.size r.2.2.toNat r.1 r.2.1
  ⟨r2.1, c.size, r2.2⟩

/-- Seeding loop of `DictionaryLimitFromMap` (src/unnamed/part_003): iterates
the source map, breaking once `count == size || instance.timeline.Size() >
size`; accepted entries are written to the backing map and appended to the
timeline. -/
def fromMapLoop {K V : Type} [DecidableEq K] (size : Int) :
    List (K × V) → List (K × V) → Vector K → Int → List (K × V) × Vector K
  | [], items, timeline, _ => (items, timeline)
  | (k, v) :: rest, items, timeline, count =>
    if count = size ∨ timeline.Size > size then
      (items, timeline)
    else
      fromMapLoop size rest (mapInsert items k v) (timeline.Append k) (count + 1)

/-- Source `DictionaryLimitFromMap` (src/unnamed/part_003). -/
def DictionaryLimitFromMap {K V : Type} [DecidableEq K] (size : Int)
    (items : List (K × V)) : DictionaryLimit K V :=
  let r := fromMapLoop size items [] (VectorEmpty K) 0
  ⟨r.1, size, r.2⟩

/-- Source `DictionaryLimitEmpty` (src/unnamed/part_003). -/
def DictionaryLimitEmpty (K V : Type) [DecidableEq K] (size : Int) :
    DictionaryLimit K V :=
  DictionaryLimitFromMap size []

/-- Seeding loop of `DictionaryLimitFromList` (src/unnamed/part_003): for each
accepted value the source calls `mapp.Put(key, v)` and then *additionally*
appends the key to the timeline, exactly as written. -/
def fromListLoop {K V : Type} [DecidableEq K] (size : Int) (mapper : V → K) :
    List V → DictionaryLimit K V → Int → DictionaryLimit K V
  | [], c, _ => c
  | v :: rest, c, count =>
    if count = size ∨ c.timeline.Size > size then
      c
    else
      let key := mapper v
      let c1 := (c.Put key v).2.2
      let c2 : DictionaryLimit K V := ⟨c1.items, c1.size, c1.timeline.Append key⟩
      fromListLoop size mapper rest c2 (count + 1)

/-- Source `DictionaryLimitFromList` (src/unnamed/part_003). -/
def DictionaryLimitFromList {K V : Type} [DecidableEq K] (size : Int)
    (vector : List V) (mapper : V → K) : DictionaryLimit K V :=
  fromListLoop size mapper vector (DictionaryLimitEmpty K V size) 0

/-- Source `DictionaryLimit.Get`, inherited from `DictionarySync.Get`
(src/collection/dictionary_sync.go) through Go struct embedding: reads the
shared backing map, ignoring the timeline. -/
def DictionaryLimit.Get {K V : Type} [DecidableEq K] (c : DictionaryLimit K V)
    (key : K) : Option V × Bool :=
  (mapLookup c.items key, (mapLookup c.items key).isSome)

/-- Source `DictionaryLimit.Remove`, inherited from `DictionarySync.Remove`
(src/collection/dictionary_sync.go): deletes the key from the backing map and
leaves the timeline untouched (the subclass does not override it). -/
def DictionaryLimit.Remove {K V : Type} [DecidableEq K]
    (c : DictionaryLimit K V) (key : K) :
    Option V × Bool × DictionaryLimit K V :=
  (mapLookup c.items key, (mapLookup c.items key).isSome,
    ⟨mapErase c.items key, c.size, c.timeline⟩)

/-- Source `DictionaryLimit.Clean`, inherited from `DictionarySync.Clean`: replaces
the backing map with a fresh empty one, timeline untouched. -/
def DictionaryLimit.Clean {K V : Type} (c : DictionaryLimit K V) :
    DictionaryLimit K V :=
  ⟨[], c.size, c.timeline⟩

/-- Source `DictionaryLimit.FilterSelf`, inherited from `DictionarySync.FilterSelf`:
filters the backing map in place, timeline untouched. -/
def DictionaryLimit.FilterSelf {K V : Type} (c : DictionaryLimit K V)
    (predicate : K → V → Bool) : DictionaryLimit K V :=
  ⟨c.items.filter (fun p => predicate p.1 p.2), c.size, c.timeline⟩

/-- The mutating operations a `DictionaryLimit` exposes after construction:
its own `Put`/`PutIfAbsent`/`PutAll` (src/unnamed/part_003) and the
`Remove`/`Clean`/`FilterSelf` inherited from `DictionarySync`
(src/collection/dictionary_sync.go). -/
inductive DictOp (K V : Type) where
  | put : K → V → DictOp K V
  | putIfAbsent : K → V → DictOp K V
  | putAll : List (K × V) → DictOp K V
  | remove : K → DictOp K V
  | clean : DictOp K V
  | filterSelf : (K → V → Bool) → DictOp K V

/-- Apply one operation to a `DictionaryLimit`, discarding the Go return
values and keeping the updated state. -/
def applyOp {K V : Type} [DecidableEq K] (c : DictionaryLimit K V) :
    DictOp K V → DictionaryLimit K V
  | .put k v => (c.Put k v).2.2
  | .putIfAbsent k v => (c.PutIfAbsent k v).2.2
  | .putAll m => c.PutAll m
  | .remove k => (c.Remove k).2.2
  | .clean => c.Clean
  | .filterSelf p => c.FilterSelf p

/-- Run a sequence of operations left to right. -/
def runOps {K V : Type} [DecidableEq K] (c : DictionaryLimit K V) :
    List (DictOp K V) → DictionaryLimit K V
  | [] => c
  | op :: rest => runOps (applyOp c op) rest

/-- The one-directional inclusion invariant of claim C10: the backing map has
no duplicate keys (a Go map property preserved by the association-list
operations) and every key present in it occurs in the timeline. -/
def KeysCovered {K V : Type} (c : DictionaryLimit K V) : Prop :=
  (mapKeys c.items).Nodup ∧ ∀ k ∈ mapKeys c.items, k ∈ c.timeline.items

/-- C6: the claim states that `Vector.Remove(i)` on a valid index returns the
element formerly at position `i` together with `true` and afterwards the
vector has the entry removed, with length decreased by one.  Evaluating the
code at `Remove(1)` on `[1, 2, 3]` shows it returns `(2, true)` but leaves
the vector equal to `[1, 2, 3]` of unchanged length 3: the slice expression
`append(c.items[:index], c.items[index:]...)` removes nothing. -/
theorem C6_remove_is_noop_eval :
    Vector.Remove ⟨[1, 2, 3]⟩ 1 = ((some 2, true, ⟨[1, 2, 3]⟩) :
      Option Nat × Bool × Vector Nat) ∧
    ((Vector.Remove ⟨[1, 2, 3]⟩ (1 : Int)).2.2 : Vector Nat).items.length = 3 := by
  constructor <;> rfl

/-- C5: the claim states that after any `Put(key, value)` completes the key
is present with the value just written.  Evaluating the code on a capacity-3
`DictionaryLimit` after `Put 1, Put 2, Put 3` and then `Put (1, 99)` shows
`Get 1 = (none, false)`: because the timeline refresh removes nothing, the
appended duplicate pushes the timeline over capacity and the front entry —
key 1, the key just written — is evicted from the backing map. -/
theorem C5_put_evicts_written_key_eval :
    (((((DictionaryLimitEmpty Nat Nat 3).Put 1 1).2.2.Put 2 2).2.2.Put
        3 3).2.2.Put 1 99).2.2.Get 1 = (none, false) := by
  rfl

/-- C3: the claim states that with capacity 3, inserting A, B, C, then
re-writing A, then inserting D evicts exactly B and leaves A, C, D present.
Evaluating the code with A,B,C,D = 1,2,3,4 shows that after the five
operations key 1 (A) and key 2 (B) are both absent while only 3 and 4 are
present: re-writing A evicted A itself (the timeline refresh is a no-op),
and the final Put then evicted B as well. -/
theorem C3_refresh_does_not_protect_eval :
    (let final := ((((((DictionaryLimitEmpty Nat Nat 3).Put 1 1).2.2.Put
      2 2).2.2.Put 3 3).2.2.Put 1 99).2.2.Put 4 4).2.2
    final.Get 1 = (none, false) ∧ final.Get 2 = (none, false) ∧
      final.Get 3 = (some 3, true) ∧ final.Get 4 = (some 4, true)) := by
  exact ⟨rfl, rfl, rfl, rfl⟩

/-- C2: the claim states that after any completed operation every key of the
backing map appears exactly once in the timeline, with no duplicates and no
orphans.  Evaluating the code on a capacity-3 `DictionaryLimit` after
`Put 1, Put 2, Put 1` shows the timeline is `[1, 2, 1]` — key 1 occurs twice
(the refresh step failed to remove the prior occurrence) although the backing
map holds it once. -/
theorem C2_timeline_duplicate_eval :
    (let c := ((((DictionaryLimitEmpty Nat Nat 3).Put 1 1).2.2.Put
      2 2).2.2.Put 1 3).2.2
    c.timeline.items = [1, 2, 1] ∧ c.timeline.items.count 1 = 2 ∧
      mapKeys c.items = [1, 2]) := by
  exact ⟨rfl, rfl, rfl⟩

/-- C7: the claim states that seeding via `DictionaryLimitFromList` with
all-distinct keys and more entries than the capacity yields exactly
`min(capacity, entries)` entries, with no earlier accepted entry evicted
during seeding.  Evaluating the code at capacity 2 on the three distinct
values `[10, 20, 30]` (identity key-extractor) yields a single entry,
`{20 ↦ 20}`, not `min(2, 3) = 2`: the seed loop appends each key to the
timeline a second time after `Put` already appended it, so the timeline
reaches `[a, a, b]` during the second `Put`, which evicts the first accepted
entry, and the corrupted timeline length then trips the loop's break. -/
theorem C7_fromList_wrong_size_eval :
    (DictionaryLimitFromList 2 [10, 20, 30] (fun v => v) :
      DictionaryLimit Nat Nat).items = [(20, 20)] ∧
    (DictionaryLimitFromList 2 [10, 20, 30] (fun v => v) :
      DictionaryLimit Nat Nat).items.length = 1 ∧
    (DictionaryLimitFromList 2 [10, 20, 30] (fun v => v) :
      DictionaryLimit Nat Nat).timeline.items = [10, 20, 20] := by
  exact ⟨rfl, rfl, rfl⟩

/-- C1: the claim states that on any `DictionaryLimit` of positive capacity
C, after every completed `Put`/`PutIfAbsent`/`PutAll` the backing map holds
at most C entries.  Evaluating the code on the capacity-2 instance seeded by
`DictionaryLimitFromList` from `[10, 20, 30]` and then performing
`Put 30, Put 40, Put 50` leaves the backing map with 3 entries: the corrupt
seed timeline `[10, 20, 20]` makes the first two Puts evict stale keys, and
after the third Put the map holds `{30, 40, 50}` although the capacity is 2. -/
theorem C1_capacity_exceeded_eval :
    (let final := ((((DictionaryLimitFromList 2 [10, 20, 30] (fun v => v) :
      DictionaryLimit Nat Nat).Put 30 30).2.2.Put 40 40).2.2.Put 50 50).2.2
    final.size = 2 ∧ final.items.length = 3) := by
  exact ⟨rfl, rfl⟩

/-- C4: on a `DictionaryLimit` of capacity 3, after inserting distinct keys
A, B, C in that order, `PutIfAbsent(A, v)` returns the existing value with
`existed = true` and changes neither the backing map nor the timeline, and a
subsequent `Put(D, w)` evicts exactly A (whose recency was never refreshed):
afterwards A is absent while B, C and D are present. -/
theorem C4_putIfAbsent_does_not_refresh {K V : Type} [DecidableEq K]
    (a b c d : K) (va vb vc v w : V)
    (hab : a ≠ b) (hac : a ≠ c) (had : a ≠ d)
    (hbc : b ≠ c) (hbd : b ≠ d) (hcd : c ≠ d) :
    (let s3 := ((((DictionaryLimitEmpty K V 3).Put a va).2.2.Put
      b vb).2.2.Put c vc).2.2
    s3.PutIfAbsent a v = (some va, true, s3) ∧
    (let final := ((s3.PutIfAbsent a v).2.2.Put d w).2.2
    final.Get a = (none, false) ∧ final.Get b = (some vb, true) ∧
      final.Get c = (some vc, true) ∧ final.Get d = (some w, true))) := by
  have h0 : DictionaryLimitEmpty K V 3 = ⟨[], 3, ⟨[]⟩⟩ := rfl
  have h1 : ((DictionaryLimitEmpty K V 3).Put a va).2.2 =
      ⟨[(a, va)], 3, ⟨[a]⟩⟩ := by
    rw [h0]
    norm_num [DictionaryLimit.Put, mapLookup, mapInsert, Vector.IndexOf,
      indexOfLoop, Vector.Append, evictOne, Vector.Size]
  have h2 : (DictionaryLimit.Put ⟨[(a, va)], 3, ⟨[a]⟩⟩ b vb).2.2 =
      (⟨[(a, va), (b, vb)], 3, ⟨[a, b]⟩⟩ : DictionaryLimit K V) := by
    norm_num [DictionaryLimit.Put, mapLookup, mapInsert, Vector.IndexOf,
      indexOfLoop, Vector.Append, evictOne, Vector.Size, hab, Ne.symm hab]
  have h3 : (DictionaryLimit.Put ⟨[(a, va), (b, vb)], 3, ⟨[a, b]⟩⟩ c vc).2.2 =
      (⟨[(a, va), (b, vb), (c, vc)], 3, ⟨[a, b, c]⟩⟩ : DictionaryLimit K V) := by
    norm_num [DictionaryLimit.Put, mapLookup, mapInsert, Vector.IndexOf,
      indexOfLoop, Vector.Append, evictOne, Vector.Size, hac, hbc,
      Ne.symm hac, Ne.symm hbc]
  have h4 : DictionaryLimit.PutIfAbsent
      (⟨[(a, va), (b, vb), (c, vc)], 3, ⟨[a, b, c]⟩⟩ : DictionaryLimit K V) a v =
      (some va, true, ⟨[(a, va), (b, vb), (c, vc)], 3, ⟨[a, b, c]⟩⟩) := by
    norm_num [DictionaryLimit.PutIfAbsent, mapLookup]
  have h5 : (DictionaryLimit.Put
      (⟨[(a, va), (b, vb), (c, vc)], 3, ⟨[a, b, c]⟩⟩ : DictionaryLimit K V) d w).2.2 =
      (⟨[(b, vb), (c, vc), (d, w)], 3, ⟨[b, c, d]⟩⟩ : DictionaryLimit K V) := by
    norm_num [DictionaryLimit.Put, mapLookup, mapInsert, Vector.IndexOf,
      indexOfLoop, Vector.Append, evictOne, Vector.Size, mapErase,
      had, hbd, hcd, Ne.symm had, Ne.symm hbd, Ne.symm hcd]
  simp only [h1, h2, h3, h4, h5]
  norm_num [DictionaryLimit.Get, mapLookup, hab, hac, had, hbc, hbd, hcd,
    Ne.symm hab, Ne.symm hac, Ne.symm had, Ne.symm hbc, Ne.symm hbd,
    Ne.symm hcd]

/-- C4 witness: the scenario of `C4_putIfAbsent_does_not_refresh`
instantiated with keys 1, 2, 3, 4 and numeric values. -/
theorem C4_putIfAbsent_does_not_refresh_witness :
    (let s3 := ((((DictionaryLimitEmpty Nat Nat 3).Put 1 11).2.2.Put
      2 22).2.2.Put 3 33).2.2
    s3.PutIfAbsent 1 99 = (some 11, true, s3) ∧
    (let final := ((s3.PutIfAbsent 1 99).2.2.Put 4 44).2.2
    final.Get 1 = (none, false) ∧ final.Get 2 = (some 22, true) ∧
      final.Get 3 = (some 33, true) ∧ final.Get 4 = (some 44, true))) :=
  C4_putIfAbsent_does_not_refresh 1 2 3 4 11 22 33 99 44
    (by decide) (by decide) (by decide) (by decide) (by decide) (by decide)

/-- C9: the claim states that every index-taking `Vector` operation is total
on out-of-range arguments, reporting failure through the ok boolean or by
clamping, never by raising.  Evaluating `Slice(0, -1)` on `[1, 2, 3]` shows
the code reaches the Go slice expression `c.items[0:-1]`, which panics
(modelled `none`): a negative `end` is never clamped, only `end > len-1` is. -/
theorem C9_slice_panics_eval :
    Vector.Slice (⟨[1, 2, 3]⟩ : Vector Nat) 0 (-1) = none ∧
    Vector.Page (⟨[1, 2, 3, 4, 5]⟩ : Vector Nat) (-1) 3 = none := by
  exact ⟨rfl, rfl⟩

/-- Invariant of the `Max` scan (src/collection/dictionary_sync.go) once
`init` is `true` and the running score is the score of the running pair: the
scan stays initialised, the returned score is the returned pair's score, the
returned pair is the accumulator or one of the scanned entries, the running
score never decreases, and every scanned entry scores at most the result. -/
theorem maxLoop_spec {K V : Type} (f : K → V → Int) (l : List (K × V)) :
    ∀ (mk : K) (mv : V) (ms : Int), ms = f mk mv →
      (maxLoop f l mk mv ms true).2.2.2 = true ∧
      (maxLoop f l mk mv ms true).2.2.1 =
        f (maxLoop f l mk mv ms true).1 (maxLoop f l mk mv ms true).2.1 ∧
      (((maxLoop f l mk mv ms true).1, (maxLoop f l mk mv ms true).2.1) = (mk, mv) ∨
        ((maxLoop f l mk mv ms true).1, (maxLoop f l mk mv ms true).2.1) ∈ l) ∧
      ms ≤ (maxLoop f l mk mv ms true).2.2.1 ∧
      ∀ p ∈ l, f p.1 p.2 ≤ (maxLoop f l mk mv ms true).2.2.1 := by
  induction l with
  | nil =>
    intro mk mv ms hms
    simp [maxLoop, hms]
  | cons head rest ih =>
    intro mk mv ms hms
    obtain ⟨k, v⟩ := head
    by_cases h : ms ≤ f k v
    · have heq : maxLoop f ((k, v) :: rest) mk mv ms true =
          maxLoop f rest k v (f k v) true := by
        simp [maxLoop, h]
      have hrec := ih k v (f k v) rfl
      rw [heq]
      refine ⟨hrec.1, hrec.2.1, ?_, ?_, ?_⟩
      · rcases hrec.2.2.1 with h1 | h1
        · exact Or.inr (by simp [h1])
        · exact Or.inr (List.mem_cons_of_mem _ h1)
      · exact le_trans h hrec.2.2.2.1
      · intro p hp
        rcases List.mem_cons.mp hp with h1 | h1
        · subst h1
          exact hrec.2.2.2.1
        · exact hrec.2.2.2.2 p h1
    · have heq : maxLoop f ((k, v) :: rest) mk mv ms true =
          maxLoop f rest mk mv ms true := by
        simp [maxLoop, h]
      have hrec := ih mk mv ms hms
      rw [heq]
      refine ⟨hrec.1, hrec.2.1, ?_, hrec.2.2.2.1, ?_⟩
      · rcases hrec.2.2.1 with h1 | h1
        · exact Or.inl h1
        · exact Or.inr (List.mem_cons_of_mem _ h1)
      · intro p hp
        rcases List.mem_cons.mp hp with h1 | h1
        · subst h1
          exact le_trans (le_of_not_le h) hrec.2.2.2.1
        · exact hrec.2.2.2.2 p h1

/-- Invariant of the `Min` scan (src/collection/dictionary_sync.go),
symmetric to `maxLoop_spec`. -/
theorem minLoop_spec {K V : Type} (f : K → V → Int) (l : List (K × V)) :
    ∀ (mp : Pair K V) (ms : Int), ms = f mp.key mp.value →
      (minLoop f l mp ms true).2.2 = true ∧
      (minLoop f l mp ms true).2.1 =
        f (minLoop f l mp ms true).1.key (minLoop f l mp ms true).1.value ∧
      ((minLoop f l mp ms true).1 = mp ∨
        ((minLoop f l mp ms true).1.key, (minLoop f l mp ms true).1.value) ∈ l) ∧
      (minLoop f l mp ms true).2.1 ≤ ms ∧
      ∀ p ∈ l, (minLoop f l mp ms true).2.1 ≤ f p.1 p.2 := by
  induction l with
  | nil =>
    intro mp ms hms
    simp [minLoop, hms]
  | cons head rest ih =>
    intro mp ms hms
    obtain ⟨k, v⟩ := head
    by_cases h : f k v ≤ ms
    · have heq : minLoop f ((k, v) :: rest) mp ms true =
          minLoop f rest ⟨k, v⟩ (f k v) true := by
        simp [minLoop, h]
      have hrec := ih ⟨k, v⟩ (f k v) rfl
      rw [heq]
      refine ⟨hrec.1, hrec.2.1, ?_, ?_, ?_⟩
      · rcases hrec.2.2.1 with h1 | h1
        · exact Or.inr (by simp [h1])
        · exact Or.inr (List.mem_cons_of_mem _ h1)
      · exact le_trans hrec.2.2.2.1 h
      · intro p hp
        rcases List.mem_cons.mp hp with h1 | h1
        · subst h1
          exact hrec.2.2.2.1
        · exact hrec.2.2.2.2 p h1
    · have heq : minLoop f ((k, v) :: rest) mp ms true =
          minLoop f rest mp ms true := by
        simp [minLoop, h]
      have hrec := ih mp ms hms
      rw [heq]
      refine ⟨hrec.1, hrec.2.1, ?_, hrec.2.2.2.1, ?_⟩
      · rcases hrec.2.2.1 with h1 | h1
        · exact Or.inl h1
        · exact Or.inr (List.mem_cons_of_mem _ h1)
      · intro p hp
        rcases List.mem_cons.mp hp with h1 | h1
        · subst h1
          exact le_trans hrec.2.2.2.1 (le_of_not_le h)
        · exact hrec.2.2.2.2 p h1

/-- C8: `DictionarySync.Max` and `Min` with any integer scorer: on an empty
mapping they return the zero pair, score 0 and `found = false`; on a
non-empty mapping they return `found = true`, a pair actually present in the
mapping whose score equals the returned score, and no entry scores strictly
higher (for `Max`) or strictly lower (for `Min`) than the returned score. -/
theorem C8_max_min_correct {K V : Type} [Inhabited K] [Inhabited V]
    (c : DictionarySync K V) (f : K → V → Int) :
    (c.items = [] →
      c.Max f = (NewPair default default, 0, false) ∧
      c.Min f = (NewPair default default, 0, false)) ∧
    (c.items ≠ [] →
      ((c.Max f).2.2 = true ∧
        ((c.Max f).1.key, (c.Max f).1.value) ∈ c.items ∧
        f (c.Max f).1.key (c.Max f).1.value = (c.Max f).2.1 ∧
        ∀ p ∈ c.items, f p.1 p.2 ≤ (c.Max f).2.1) ∧
      ((c.Min f).2.2 = true ∧
        ((c.Min f).1.key, (c.Min f).1.value) ∈ c.items ∧
        f (c.Min f).1.key (c.Min f).1.value = (c.Min f).2.1 ∧
        ∀ p ∈ c.items, (c.Min f).2.1 ≤ f p.1 p.2)) := by
  constructor
  · intro he
    constructor
    · simp [DictionarySync.Max, he]
    · simp [DictionarySync.Min, he, NewPair]
  · intro hne
    obtain ⟨⟨k0, v0⟩, rest, hitems⟩ : ∃ h t, c.items = h :: t := by
      cases h : c.items with
      | nil => exact absurd h hne
      | cons x xs => exact ⟨x, xs, rfl⟩
    constructor
    · have hMax : c.Max f =
          (NewPair (maxLoop f rest k0 v0 (f k0 v0) true).1
            (maxLoop f rest k0 v0 (f k0 v0) true).2.1,
           (maxLoop f rest k0 v0 (f k0 v0) true).2.2.1, true) := by
        have hstep : maxLoop f ((k0, v0) :: rest) default default 0 false =
            maxLoop f rest k0 v0 (f k0 v0) true := by
          simp [maxLoop]
        simp [DictionarySync.Max, hitems, hstep]
      have hspec := maxLoop_spec f rest k0 v0 (f k0 v0) rfl
      rw [hMax, hitems]
      refine ⟨rfl, ?_, ?_, ?_⟩
      · simp only [NewPair, List.mem_cons]
        rcases hspec.2.2.1 with h1 | h1
        · exact Or.inl h1
        · exact Or.inr h1
      · simp only [NewPair]
        exact hspec.2.1.symm
      · intro p hp
        rcases List.mem_cons.mp hp with h1 | h1
        · subst h1
          exact hspec.2.2.2.1
        · exact hspec.2.2.2.2 p h1
    · have hMin : c.Min f =
          ((minLoop f rest (⟨k0, v0⟩ : Pair K V) (f k0 v0) true).1,
           (minLoop f rest (⟨k0, v0⟩ : Pair K V) (f k0 v0) true).2.1, true) := by
        have hstep : minLoop f ((k0, v0) :: rest)
            (⟨default, default⟩ : Pair K V) 0 false =
            minLoop f rest (⟨k0, v0⟩ : Pair K V) (f k0 v0) true := by
          simp [minLoop]
        simp [DictionarySync.Min, hitems, hstep]
      have hspec := minLoop_spec f rest (⟨k0, v0⟩ : Pair K V) (f k0 v0) rfl
      rw [hMin, hitems]
      refine ⟨rfl, ?_, ?_, ?_⟩
      · rcases hspec.2.2.1 with h1 | h1
        · rw [h1]
          exact List.mem_cons_self _ _
        · exact List.mem_cons_of_mem _ h1
      · exact hspec.2.1.symm
      · intro p hp
        rcases List.mem_cons.mp hp with h1 | h1
        · subst h1
          exact hspec.2.2.2.1
        · exact hspec.2.2.2.2 p h1

/-- C8 witness: `C8_max_min_correct` applied to the empty mapping and to a
concrete three-entry mapping. -/
theorem C8_max_min_correct_witness :
    (DictionarySync.Max (⟨[]⟩ : DictionarySync Nat Nat) (fun _ v => (v : Int)) =
      (NewPair 0 0, 0, false)) ∧
    ((DictionarySync.Max (⟨[(1, 5), (2, 9), (3, 2)]⟩ : DictionarySync Nat Nat)
      (fun _ v => (v : Int))).2.2 = true) :=
  ⟨((C8_max_min_correct (⟨[]⟩ : DictionarySync Nat Nat)
      (fun _ v => (v : Int))).1 rfl).1,
   (((C8_max_min_correct (⟨[(1, 5), (2, 9), (3, 2)]⟩ : DictionarySync Nat Nat)
      (fun _ v => (v : Int))).2 (by decide)).1).1⟩

/-- Inserting into the backing map either leaves the key list unchanged (the
key was present) or appends the new key at the end. -/
theorem mapKeys_mapInsert {K V : Type} [DecidableEq K] (m : List (K × V))
    (key : K) (item : V) :
    mapKeys (mapInsert m key item) =
      if key ∈ mapKeys m then mapKeys m else mapKeys m ++ [key] := by
  induction m with
  | nil => simp [mapInsert, mapKeys]
  | cons head rest ih =>
    obtain ⟨k, v⟩ := head
    by_cases h : k = key
    · subst h
      simp [mapInsert, mapKeys]
    · simp only [mapInsert, if_neg h, mapKeys, List.map_cons, List.mem_cons]
      by_cases h2 : key ∈ mapKeys rest
      · simp only [mapKeys] at ih h2
        simp [ih, h2, Ne.symm h]
      · simp only [mapKeys] at ih h2
        simp [ih, h2, Ne.symm h]

/-- Membership in the key list after an insert. -/
theorem mem_mapKeys_mapInsert {K V : Type} [DecidableEq K] (m : List (K × V))
    (key a : K) (item : V) :
    a ∈ mapKeys (mapInsert m key item) ↔ a ∈ mapKeys m ∨ a = key := by
  rw [mapKeys_mapInsert]
  by_cases h : key ∈ mapKeys m
  · simp only [if_pos h]
    constructor
    · exact Or.inl
    · rintro (h1 | rfl)
      · exact h1
      · exact h
  · simp [if_neg h]

/-- Inserting preserves key distinctness (the Go map never holds a key
twice). -/
theorem nodup_mapKeys_mapInsert {K V : Type} [DecidableEq K] (m : List (K × V))
    (key : K) (item : V) (h : (mapKeys m).Nodup) :
    (mapKeys (mapInsert m key item)).Nodup := by
  rw [mapKeys_mapInsert]
  by_cases h2 : key ∈ mapKeys m
  · simpa [if_pos h2]
  · simp [if_neg h2, List.nodup_append, h, h2]

/-- Deleting a key yields a sublist of the original key list. -/
theorem mapKeys_mapErase_sublist {K V : Type} [DecidableEq K]
    (m : List (K × V)) (key : K) :
    List.Sublist (mapKeys (mapErase m key)) (mapKeys m) := by
  induction m with
  | nil => simp [mapErase]
  | cons head rest ih =>
    obtain ⟨k, v⟩ := head
    by_cases h : k = key
    · simp only [mapErase, if_pos h, mapKeys, List.map_cons]
      exact List.sublist_cons_of_sublist _ (List.Sublist.refl _)
    · simp only [mapErase, if_neg h, mapKeys, List.map_cons]
      exact List.Sublist.cons₂ _ ih

/-- On a duplicate-free map, the deleted key is gone from the key list. -/
theorem not_mem_mapKeys_mapErase {K V : Type} [DecidableEq K]
    (m : List (K × V)) (key : K) (h : (mapKeys m).Nodup) :
    key ∉ mapKeys (mapErase m key) := by
  induction m with
  | nil => simp [mapErase, mapKeys]
  | cons head rest ih =>
    obtain ⟨k, v⟩ := head
    simp only [mapKeys, List.map_cons, List.nodup_cons] at h
    by_cases h2 : k = key
    · subst h2
      simp only [mapErase, if_pos rfl]
      exact h.1
    · simp only [mapErase, if_neg h2, mapKeys, List.map_cons, List.mem_cons]
      push_neg
      exact ⟨fun he => (h2 he.symm).elim, ih h.2⟩

/-- The Go `Vector.Remove` never changes the element list: the slice
expression `append(c.items[:index], c.items[index:]...)` rebuilds the
original contents (out of range it is a no-op by the guard). -/
theorem vector_remove_items {I : Type} (c : Vector I) (index : Int) :
    ((c.Remove index).2.2).items = c.items := by
  unfold Vector.Remove
  by_cases h : index < 0 ∨ index > (c.items.length : Int) - 1
  · simp [h]
  · simp [h, List.take_append_drop]

/-- The guarded eviction step preserves key distinctness and the inclusion
of map keys in the timeline: the evicted front key is deleted from the map
together with its popped timeline occurrence. -/
theorem keysCovered_evictOne {K V : Type} [DecidableEq K]
    (items : List (K × V)) (tl : Vector K) (size : Int)
    (hnd : (mapKeys items).Nodup) (hcov : ∀ k ∈ mapKeys items, k ∈ tl.items) :
    (mapKeys (evictOne items tl size).1).Nodup ∧
      ∀ k ∈ mapKeys (evictOne items tl size).1,
        k ∈ (evictOne items tl size).2.items := by
  obtain ⟨tlits⟩ := tl
  cases tlits with
  | nil =>
    unfold evictOne
    by_cases h : Vector.Size (⟨[]⟩ : Vector K) > 0 ∧
        Vector.Size (⟨[]⟩ : Vector K) > size
    · simp only [if_pos h]
      exact ⟨hnd, hcov⟩
    · simp only [if_neg h]
      exact ⟨hnd, hcov⟩
  | cons first rest =>
    unfold evictOne
    by_cases h : Vector.Size (⟨first :: rest⟩ : Vector K) > 0 ∧
        Vector.Size (⟨first :: rest⟩ : Vector K) > size
    · simp only [if_pos h]
      constructor
      · exact (mapKeys_mapErase_sublist items first).nodup hnd
      · intro k hk
        have hk1 : k ∈ mapKeys items :=
          (mapKeys_mapErase_sublist items first).subset hk
        have hk2 : k ∈ first :: rest := hcov k hk1
        rcases List.mem_cons.mp hk2 with h1 | h1
        · subst h1
          exact absurd hk (not_mem_mapKeys_mapErase items k hnd)
        · exact h1
    · simp only [if_neg h]
      exact ⟨hnd, hcov⟩

/-- Source `DictionaryLimit.Put` always produces the state obtained by inserting
into the backing map, appending the key to the unchanged timeline
(`Vector.Remove` removes nothing) and running one eviction step. -/
theorem put_state {K V : Type} [DecidableEq K] (c : DictionaryLimit K V)
    (key : K) (item : V) :
    (c.Put key item).2.2 =
      ⟨(evictOne (mapInsert c.items key item) ⟨c.timeline.items ++ [key]⟩ c.size).1,
       c.size,
       (evictOne (mapInsert c.items key item) ⟨c.timeline.items ++ [key]⟩ c.size).2⟩ := by
  unfold DictionaryLimit.Put
  by_cases h : c.timeline.IndexOf (fun t => decide (key = t)) ≠ -1
  · simp only [if_pos h, Vector.Append, vector_remove_items]
  · simp only [if_neg h, Vector.Append]

/-- Source `DictionaryLimit.PutIfAbsent` either leaves the state unchanged (key
present) or behaves exactly like `Put` (key absent). -/
theorem putIfAbsent_state {K V : Type} [DecidableEq K] (c : DictionaryLimit K V)
    (key : K) (item : V) :
    (c.PutIfAbsent key item).2.2 = c ∨
    (c.PutIfAbsent key item).2.2 =
      ⟨(evictOne (mapInsert c.items key item) ⟨c.timeline.items ++ [key]⟩ c.size).1,
       c.size,
       (evictOne (mapInsert c.items key item) ⟨c.timeline.items ++ [key]⟩ c.size).2⟩ := by
  unfold DictionaryLimit.PutIfAbsent
  by_cases hex : (mapLookup c.items key).isSome
  · left
    simp only [if_pos hex]
  · right
    simp only [if_neg hex]
    by_cases h : c.timeline.IndexOf (fun t => decide (key = t)) ≠ -1
    · simp only [if_pos h, Vector.Append, vector_remove_items]
    · simp only [if_neg h, Vector.Append]

/-- Source `Put` preserves the C10 invariant. -/
theorem keysCovered_put {K V : Type} [DecidableEq K] (c : DictionaryLimit K V)
    (key : K) (item : V) (h : KeysCovered c) :
    KeysCovered (c.Put key item).2.2 := by
  rw [put_state]
  have hnd := nodup_mapKeys_mapInsert c.items key item h.1
  have hcov : ∀ k ∈ mapKeys (mapInsert c.items key item),
      k ∈ c.timeline.items ++ [key] := by
    intro k hk
    rcases (mem_mapKeys_mapInsert c.items key k item).mp hk with h1 | rfl
    · exact List.mem_append_left _ (h.2 k h1)
    · exact List.mem_append_right _ (List.mem_singleton_self _)
  exact keysCovered_evictOne (mapInsert c.items key item)
    ⟨c.timeline.items ++ [key]⟩ c.size hnd hcov

/-- Source `PutIfAbsent` preserves the C10 invariant. -/
theorem keysCovered_putIfAbsent {K V : Type} [DecidableEq K]
    (c : DictionaryLimit K V) (key : K) (item : V) (h : KeysCovered c) :
    KeysCovered (c.PutIfAbsent key item).2.2 := by
  rcases putIfAbsent_state c key item with heq | heq
  · rw [heq]
    exact h
  · rw [heq]
    have hnd := nodup_mapKeys_mapInsert c.items key item h.1
    have hcov : ∀ k ∈ mapKeys (mapInsert c.items key item),
        k ∈ c.timeline.items ++ [key] := by
      intro k hk
      rcases (mem_mapKeys_mapInsert c.items key k item).mp hk with h1 | rfl
      · exact List.mem_append_left _ (h.2 k h1)
      · exact List.mem_append_right _ (List.mem_singleton_self _)
    exact keysCovered_evictOne (mapInsert c.items key item)
      ⟨c.timeline.items ++ [key]⟩ c.size hnd hcov

/-- The `PutAll` insertion loop preserves the C10 invariant. -/
theorem keysCovered_putAllLoop {K V : Type} [DecidableEq K] (size : Int)
    (inp : List (K × V)) :
    ∀ (items : List (K × V)) (tl : Vector K) (count : Int),
      (mapKeys items).Nodup → (∀ k ∈ mapKeys items, k ∈ tl.items) →
      (mapKeys (putAllLoop size inp items tl count).1).Nodup ∧
        ∀ k ∈ mapKeys (putAllLoop size inp items tl count).1,
          k ∈ (putAllLoop size inp items tl count).2.1.items := by
  induction inp with
  | nil =>
    intro items tl count hnd hcov
    exact ⟨hnd, hcov⟩
  | cons head rest ih =>
    intro items tl count hnd hcov
    obtain ⟨k, v⟩ := head
    by_cases h : count = size
    · simp only [putAllLoop, if_pos h]
      exact ⟨hnd, hcov⟩
    · simp only [putAllLoop, if_neg h]
      refine ih (mapInsert items k v) (tl.Append k) (count + 1)
        (nodup_mapKeys_mapInsert items k v hnd) ?_
      intro a ha
      rcases (mem_mapKeys_mapInsert items k a v).mp ha with h1 | rfl
      · exact List.mem_append_left _ (hcov a h1)
      · exact List.mem_append_right _ (List.mem_singleton_self _)

/-- The `PutAll` eviction loop preserves the C10 invariant. -/
theorem keysCovered_evictLoop {K V : Type} [DecidableEq K] (size : Int) :
    ∀ (n : Nat) (items : List (K × V)) (tl : Vector K),
      (mapKeys items).Nodup → (∀ k ∈ mapKeys items, k ∈ tl.items) →
      (mapKeys (evictLoop size n items tl).1).Nodup ∧
        ∀ k ∈ mapKeys (evictLoop size n items tl).1,
          k ∈ (evictLoop size n items tl).2.items := by
  intro n
  induction n with
  | zero =>
    intro items tl hnd hcov
    exact ⟨hnd, hcov⟩
  | succ m ih =>
    intro items tl hnd hcov
    have := keysCovered_evictOne items tl size hnd hcov
    exact ih (evictOne items tl size).1 (evictOne items tl size).2 this.1 this.2

/-- Source `PutAll` preserves the C10 invariant. -/
theorem keysCovered_putAll {K V : Type} [DecidableEq K] (c : DictionaryLimit K V)
    (itemsIn : List (K × V)) (h : KeysCovered c) :
    KeysCovered (c.PutAll itemsIn) := by
  unfold DictionaryLimit.PutAll
  have h1 := keysCovered_putAllLoop c.size itemsIn c.items c.timeline 0 h.1 h.2
  exact keysCovered_evictLoop c.size _ _ _ h1.1 h1.2

/-- The `DictionaryLimitFromMap` seed loop preserves the C10 invariant. -/
theorem keysCovered_fromMapLoop {K V : Type} [DecidableEq K] (size : Int)
    (inp : List (K × V)) :
    ∀ (items : List (K × V)) (tl : Vector K) (count : Int),
      (mapKeys items).Nodup → (∀ k ∈ mapKeys items, k ∈ tl.items) →
      (mapKeys (fromMapLoop size inp items tl count).1).Nodup ∧
        ∀ k ∈ mapKeys (fromMapLoop size inp items tl count).1,
          k ∈ (fromMapLoop size inp items tl count).2.items := by
  induction inp with
  | nil =>
    intro items tl count hnd hcov
    exact ⟨hnd, hcov⟩
  | cons head rest ih =>
    intro items tl count hnd hcov
    obtain ⟨k, v⟩ := head
    by_cases h : count = size ∨ tl.Size > size
    · simp only [fromMapLoop, if_pos h]
      exact ⟨hnd, hcov⟩
    · simp only [fromMapLoop, if_neg h]
      refine ih (mapInsert items k v) (tl.Append k) (count + 1)
        (nodup_mapKeys_mapInsert items k v hnd) ?_
      intro a ha
      rcases (mem_mapKeys_mapInsert items k a v).mp ha with h1 | rfl
      · exact List.mem_append_left _ (hcov a h1)
      · exact List.mem_append_right _ (List.mem_singleton_self _)

/-- Source `DictionaryLimitFromMap` establishes the C10 invariant. -/
theorem keysCovered_fromMap {K V : Type} [DecidableEq K] (size : Int)
    (items : List (K × V)) :
    KeysCovered (DictionaryLimitFromMap size items) := by
  unfold DictionaryLimitFromMap
  have h := keysCovered_fromMapLoop size items [] (VectorEmpty K) 0
    (by simp [mapKeys]) (by simp [mapKeys])
  exact ⟨h.1, h.2⟩

/-- The `DictionaryLimitFromList` seed loop preserves the C10 invariant:
each step is a `Put` followed by an extra timeline append, and growing the
timeline can only preserve the inclusion. -/
theorem keysCovered_fromListLoop {K V : Type} [DecidableEq K] (size : Int)
    (mapper : V → K) (inp : List V) :
    ∀ (c : DictionaryLimit K V) (count : Int), KeysCovered c →
      KeysCovered (fromListLoop size mapper inp c count) := by
  induction inp with
  | nil =>
    intro c count h
    exact h
  | cons v rest ih =>
    intro c count h
    by_cases hb : count = size ∨ c.timeline.Size > size
    · simp only [fromListLoop, if_pos hb]
      exact h
    · simp only [fromListLoop, if_neg hb]
      refine ih _ (count + 1) ?_
      have h1 := keysCovered_put c (mapper v) v h
      refine ⟨h1.1, ?_⟩
      intro k hk
      exact List.mem_append_left _ (h1.2 k hk)

/-- Source `DictionaryLimitFromList` establishes the C10 invariant (even though it
corrupts the timeline with duplicates and orphans, the inclusion direction
holds). -/
theorem keysCovered_fromList {K V : Type} [DecidableEq K] (size : Int)
    (vector : List V) (mapper : V → K) :
    KeysCovered (DictionaryLimitFromList size vector mapper) := by
  unfold DictionaryLimitFromList
  exact keysCovered_fromListLoop size mapper vector _ 0
    (keysCovered_fromMap size [])

/-- Every operation preserves the C10 invariant. -/
theorem keysCovered_applyOp {K V : Type} [DecidableEq K]
    (c : DictionaryLimit K V) (op : DictOp K V) (h : KeysCovered c) :
    KeysCovered (applyOp c op) := by
  cases op with
  | put k v => exact keysCovered_put c k v h
  | putIfAbsent k v => exact keysCovered_putIfAbsent c k v h
  | putAll m => exact keysCovered_putAll c m h
  | remove k =>
    refine ⟨(mapKeys_mapErase_sublist c.items k).nodup h.1, ?_⟩
    intro a ha
    exact h.2 a ((mapKeys_mapErase_sublist c.items k).subset ha)
  | clean =>
    refine ⟨?_, ?_⟩ <;> simp [applyOp, DictionaryLimit.Clean, mapKeys]
  | filterSelf p =>
    have hsub : List.Sublist (mapKeys (c.items.filter (fun q => p q.1 q.2)))
        (mapKeys c.items) := (List.filter_sublist c.items).map Prod.fst
    refine ⟨hsub.nodup h.1, ?_⟩
    intro a ha
    exact h.2 a (hsub.subset ha)

/-- An operation sequence preserves the C10 invariant. -/
theorem keysCovered_runOps {K V : Type} [DecidableEq K] :
    ∀ (ops : List (DictOp K V)) (c : DictionaryLimit K V), KeysCovered c →
      KeysCovered (runOps c ops) := by
  intro ops
  induction ops with
  | nil =>
    intro c h
    exact h
  | cons op rest ih =>
    intro c h
    exact ih (applyOp c op) (keysCovered_applyOp c op h)

/-- With distinct map keys all contained in the timeline, the map cannot be
larger than the timeline. -/
theorem length_le_of_keysCovered {K V : Type} [DecidableEq K]
    (c : DictionaryLimit K V) (h : KeysCovered c) :
    c.items.length ≤ c.timeline.items.length := by
  have h1 : c.items.length = (mapKeys c.items).length := by
    simp [mapKeys]
  rw [h1]
  exact (List.subperm_of_subset h.1 h.2).length_le

/-- C10: for every `DictionaryLimit`, however constructed (`FromMap`, which
also covers `Empty`, or `FromList`, which also covers `FromVector`), and
after every sequence of completed operations (`Put`, `PutIfAbsent`,
`PutAll`, and the inherited `Remove`, `Clean`, `FilterSelf`), every key
present in the backing map occurs in the timeline, so the backing map's
size never exceeds the timeline's length — even though the timeline may
contain duplicate or orphaned keys. -/
theorem C10_keys_always_in_timeline {K V : Type} [DecidableEq K] (size : Int)
    (seedMap : List (K × V)) (seedList : List V) (mapper : V → K)
    (ops : List (DictOp K V)) :
    ((∀ k ∈ mapKeys (runOps (DictionaryLimitFromMap size seedMap) ops).items,
        k ∈ (runOps (DictionaryLimitFromMap size seedMap) ops).timeline.items) ∧
      (runOps (DictionaryLimitFromMap size seedMap) ops).items.length ≤
        (runOps (DictionaryLimitFromMap size seedMap) ops).timeline.items.length) ∧
    ((∀ k ∈ mapKeys
        (runOps (DictionaryLimitFromList size seedList mapper) ops).items,
        k ∈ (runOps (DictionaryLimitFromList size seedList mapper)
          ops).timeline.items) ∧
      (runOps (DictionaryLimitFromList size seedList mapper) ops).items.length ≤
        (runOps (DictionaryLimitFromList size seedList mapper)
          ops).timeline.items.length) := by
  have h1 := keysCovered_runOps ops _ (keysCovered_fromMap size seedMap)
  have h2 := keysCovered_runOps ops _
    (keysCovered_fromList size seedList mapper)
  exact ⟨⟨h1.2, length_le_of_keysCovered _ h1⟩,
    ⟨h2.2, length_le_of_keysCovered _ h2⟩⟩

/-- C10 witness: `C10_keys_always_in_timeline` applied to a concrete
capacity-3 instance seeded from a two-entry map and mutated by a `Put`, a
`PutAll` and a `Remove`. -/
theorem C10_keys_always_in_timeline_witness :
    (runOps (DictionaryLimitFromMap 3 [(1, 10), (2, 20)] :
        DictionaryLimit Nat Nat)
      [DictOp.put 5 50, DictOp.putAll [(6, 60)], DictOp.remove 1]).items.length ≤
    (runOps (DictionaryLimitFromMap 3 [(1, 10), (2, 20)] :
        DictionaryLimit Nat Nat)
      [DictOp.put 5 50, DictOp.putAll [(6, 60)],
        DictOp.remove 1]).timeline.items.length :=
  (C10_keys_always_in_timeline 3 [(1, 10), (2, 20)] ([] : List Nat)
    (fun v => v)
    [DictOp.put 5 50, DictOp.putAll [(6, 60)], DictOp.remove 1]).1.2

end GoCollections
